import Mathlib

/-
Verification of the symbol-remapping core of kimght/LimbusFonts (src/main.py).

Modelling conventions:
* A Python one-character string (a symbol) is modelled by its Unicode code
  point, a `Nat`.  Under this encoding Python's `chr` and `ord` are the
  identity, so `chr` below is the identity function on `Nat`.  (Unlike Lean's
  `Char`, Python code points may be surrogates, so `Nat` is the faithful
  carrier.)
* Python dicts preserve insertion order; they are modelled as association
  lists (`List (key × value)`) built by appending, so list order is dict
  insertion order and `List.lookup` is dict membership/access.
* `Font.symbols` holds, in the source, a path whose file is read with
  `read_text()`; reading is external I/O, so the model inlines the file's
  text content (as a list of code points) into the field.
* `raise ValueError(msg)` is modelled as `Except.error msg`; a raise aborts
  `make_replacement_map`, so no partial map escapes, matching `Except`.
-/

/-- Python `chr`: code point to one-character string.  Symbols are modelled
by their code points, so this is the identity. -/
def chr (n : Nat) : Nat := n

/-- Python `str.strip()` whitespace test, restricted to the ASCII whitespace
characters (space, tab, newline, carriage return, vertical tab, form feed);
the corpora relevant here contain no exotic Unicode whitespace. -/
def isPySpace (c : Nat) : Bool :=
  c == 32 || c == 9 || c == 10 || c == 13 || c == 11 || c == 12

/-- Python `content.split("\n")`: split a text into its lines at code point
10, the separators removed.  Always returns at least one (possibly empty)
line. -/
def splitOnNL : List Nat → List (List Nat)
  | [] => [[]]
  | c :: rest =>
    if c == 10 then [] :: splitOnNL rest
    else
      match splitOnNL rest with
      | [] => [[c]]
      | l :: ls => (c :: l) :: ls

/-- Python `line.strip()`: drop leading and trailing whitespace. -/
def pyStrip (l : List Nat) : List Nat :=
  ((l.dropWhile isPySpace).reverse.dropWhile isPySpace).reverse

/-- The `Font` config record of src/main.py (msgspec.Struct), with the
symbol-corpus file's text content inlined into `symbols` (the source stores a
path and reads it with `read_text()`, which is external I/O). -/
structure Font where
  name : String
  filename : String
  symbols : List Nat
  extra : List Nat
deriving DecidableEq

/-- Lines 46-49 of src/main.py: read the corpus, strip every line and join
the lines, then append `chr(codepoint)` for each extra code point. -/
def collectSymbols (font : Font) : List Nat :=
  ((splitOnNL font.symbols).map pyStrip).flatten ++ font.extra.map chr

/-- The message of the `ValueError` raised on line 62 of src/main.py. -/
def errMsg : String := "Private range is full, use different range"

/-- Lines 51-62 of src/main.py: the per-font inner loop of
`make_replacement_map`.  `submap` is `replacements[font_name]` built so far,
`cursor` is `current_symbol`, `isDefault` is the test
`font_name == default_font` (constant across one font).  The source assigns,
increments, and then raises if the new cursor reached the upper bound; here
the bound test is done on `cursor + 1` before recursing, which is the same
observable behaviour since the raise discards all state. -/
def allocFont (isDefault : Bool) (upper : Nat) :
    List Nat → List (Nat × Nat) → Nat → Except String (List (Nat × Nat) × Nat)
  | [], submap, cursor => .ok (submap, cursor)
  | symbol :: rest, submap, cursor =>
    if (List.lookup symbol submap).isSome then
      allocFont isDefault upper rest submap cursor
    else if isDefault then
      allocFont isDefault upper rest (submap ++ [(symbol, symbol)]) cursor
    else if cursor + 1 ≥ upper then .error errMsg
    else allocFont isDefault upper rest (submap ++ [(symbol, chr cursor)]) (cursor + 1)

/-- Lines 44-62 of src/main.py: the outer loop of `make_replacement_map` over
`fonts.items()` in insertion order, threading `current_symbol`. -/
def allocFonts (defaultFont : Option String) (upper : Nat) :
    List (String × Font) → List (String × List (Nat × Nat)) → Nat →
    Except String (List (String × List (Nat × Nat)) × Nat)
  | [], acc, cursor => .ok (acc, cursor)
  | (fontName, font) :: rest, acc, cursor =>
    match allocFont (some fontName == defaultFont) upper (collectSymbols font) [] cursor with
    | .error e => .error e
    | .ok (submap, cursor') =>
        allocFonts defaultFont upper rest (acc ++ [(fontName, submap)]) cursor'

/-- The `ReplacementMap` struct of src/main.py: font name → (symbol →
replacement), both dicts in insertion order. -/
structure ReplacementMap where
  replacements : List (String × List (Nat × Nat))
deriving DecidableEq

/-- Lines 35-64 of src/main.py: `make_replacement_map(fonts, default_font,
private_range)`.  In the source `default_font` defaults to `None` and
`private_range` to `(0xE000, 0xF8FF)`; callers here always pass both
explicitly.  The cursor starts at `private_range[0]`. -/
def make_replacement_map (fonts : List (String × Font)) (default_font : Option String)
    (private_range : Nat × Nat) : Except String ReplacementMap :=
  match allocFonts default_font private_range.2 fonts [] private_range.1 with
  | .error e => .error e
  | .ok (replacements, _) => .ok ⟨replacements⟩

/-- Lines 67-68 of src/main.py: `wrap_lines(content, line_length)` is the
list comprehension `[content[i : i + line_length] for i in
range(0, len(content), line_length)]`.  Python's `range` with step 0 raises,
so `line_length = 0` (never used) is mapped to `[]`. -/
def wrap_lines (content : List Nat) (line_length : Nat) : List (List Nat) :=
  if line_length == 0 then []
  else
    (List.range ((content.length + line_length - 1) / line_length)).map
      fun k => (content.drop (k * line_length)).take line_length

/-- Python `string.ascii_letters` as code points: lowercase a-z then
uppercase A-Z. -/
def ascii_letters : List Nat := List.range' 97 26 ++ List.range' 65 26

/-- Python `string.digits` as code points: 0-9. -/
def ascii_digits : List Nat := List.range' 48 10

/-- Python `string.punctuation` as code points: the 32 ASCII punctuation
characters, code blocks 33-47, 58-64, 91-96, 123-126. -/
def ascii_punctuation : List Nat :=
  List.range' 33 15 ++ List.range' 58 7 ++ List.range' 91 6 ++ List.range' 123 4

/-- Lines 154-161 of src/main.py: the `preview_text` dict built in `main`
(it is rebuilt inside the target loop but does not depend on the target):
for every font, the concatenation of the values of its sub-map, wrapped at
width 64, followed by the fixed base entry of ASCII letters, digits and
punctuation, also wrapped at width 64. -/
def preview_text (rm : ReplacementMap) : List (String × List (List Nat)) :=
  (rm.replacements.map fun p => (p.1, wrap_lines (p.2.map Prod.snd) 64)) ++
    [("base", wrap_lines (ascii_letters ++ ascii_digits ++ ascii_punctuation) 64)]

/-- First-occurrence deduplication of `l` relative to the already-seen
symbols `seen`: keeps the first occurrence of each symbol not in `seen`, in
order.  Specification device (Python dedups through the dict-membership test
on line 52). -/
def firstDedupFrom (seen : List Nat) : List Nat → List Nat
  | [] => []
  | c :: rest =>
    if c ∈ seen then firstDedupFrom seen rest
    else c :: firstDedupFrom (c :: seen) rest

/-- First-occurrence deduplication of a symbol sequence. -/
def firstDedup (l : List Nat) : List Nat := firstDedupFrom [] l

/-- Number of distinct symbols a font consumes from the private range: 0 for
the default font, otherwise the number of distinct collected symbols. -/
def fontDistinct (df : Option String) (p : String × Font) : Nat :=
  if some p.1 == df then 0 else (firstDedup (collectSymbols p.2)).length

/-- Total number of distinct symbols over all non-identity fonts. -/
def totalDistinct (df : Option String) (fonts : List (String × Font)) : Nat :=
  (fonts.map (fontDistinct df)).sum

/-- Whether an `Except` result is a success. -/
def isOk {ε α : Type} : Except ε α → Bool
  | .ok _ => true
  | .error _ => false

/-! Helper lemmas about the model. -/

theorem allocFont_nil (isDef : Bool) (upper : Nat) (submap : List (Nat × Nat)) (cursor : Nat) :
    allocFont isDef upper [] submap cursor = .ok (submap, cursor) := rfl

theorem allocFont_cons_seen {s : Nat} {submap : List (Nat × Nat)}
    (isDef : Bool) (upper : Nat) (rest : List Nat) (cursor : Nat)
    (h : (List.lookup s submap).isSome = true) :
    allocFont isDef upper (s :: rest) submap cursor =
      allocFont isDef upper rest submap cursor := by
  rw [allocFont, if_pos h]

theorem allocFont_cons_default {s : Nat} {submap : List (Nat × Nat)}
    (upper : Nat) (rest : List Nat) (cursor : Nat)
    (h : (List.lookup s submap).isSome = false) :
    allocFont true upper (s :: rest) submap cursor =
      allocFont true upper rest (submap ++ [(s, s)]) cursor := by
  rw [allocFont, if_neg (by simp [h]), if_pos rfl]

theorem allocFont_cons_new_err {s : Nat} {submap : List (Nat × Nat)} {upper cursor : Nat}
    (rest : List Nat) (h : (List.lookup s submap).isSome = false)
    (hc : cursor + 1 ≥ upper) :
    allocFont false upper (s :: rest) submap cursor = .error errMsg := by
  rw [allocFont, if_neg (by simp [h]), if_neg (by simp), if_pos hc]

theorem allocFont_cons_new_ok {s : Nat} {submap : List (Nat × Nat)} {upper cursor : Nat}
    (rest : List Nat) (h : (List.lookup s submap).isSome = false)
    (hc : ¬cursor + 1 ≥ upper) :
    allocFont false upper (s :: rest) submap cursor =
      allocFont false upper rest (submap ++ [(s, chr cursor)]) (cursor + 1) := by
  rw [allocFont, if_neg (by simp [h]), if_neg (by simp), if_neg hc]

theorem lookup_append_single (m : List (Nat × Nat)) (x c r : Nat) :
    (List.lookup x (m ++ [(c, r)])).isSome = ((List.lookup x m).isSome || (x == c)) := by
  induction m with
  | nil => by_cases h : (x == c) = true <;> simp [List.lookup, h]
  | cons p t ih =>
    obtain ⟨k, v⟩ := p
    by_cases h : (x == k) = true <;> simp [List.lookup, h, ih]

theorem mem_firstDedupFrom {x : Nat} :
    ∀ {seen l : List Nat}, x ∈ firstDedupFrom seen l ↔ x ∈ l ∧ x ∉ seen := by
  intro seen l
  induction l generalizing seen with
  | nil => simp [firstDedupFrom]
  | cons c rest ih =>
    by_cases hc : c ∈ seen
    · rw [firstDedupFrom, if_pos hc, ih]
      constructor
      · rintro ⟨hx, hns⟩; exact ⟨List.mem_cons_of_mem _ hx, hns⟩
      · rintro ⟨hx, hns⟩
        rcases List.mem_cons.mp hx with hx | hx
        · exact absurd (hx ▸ hc) hns
        · exact ⟨hx, hns⟩
    · rw [firstDedupFrom, if_neg hc]
      by_cases hxc : x = c
      · subst hxc
        simp [List.mem_cons, hc]
      · rw [List.mem_cons, List.mem_cons]
        simp only [hxc, false_or]
        rw [ih]
        simp [List.mem_cons, hxc]

theorem nodup_firstDedupFrom : ∀ (seen l : List Nat), (firstDedupFrom seen l).Nodup := by
  intro seen l
  induction l generalizing seen with
  | nil => simp [firstDedupFrom]
  | cons c rest ih =>
    by_cases hc : c ∈ seen
    · rw [firstDedupFrom, if_pos hc]; exact ih seen
    · rw [firstDedupFrom, if_neg hc]
      refine List.Nodup.cons ?_ (ih _)
      intro hmem
      exact (mem_firstDedupFrom.mp hmem).2 (List.mem_cons_self c _)

/-- The `seen` list abstracts the keys of the sub-map built so far: the
dict-membership test on line 52 of src/main.py succeeds exactly on `seen`. -/
def SeenInv (submap : List (Nat × Nat)) (seen : List Nat) : Prop :=
  ∀ x : Nat, (List.lookup x submap).isSome = true ↔ x ∈ seen

theorem seenInv_nil : SeenInv [] [] := by
  intro x; simp [List.lookup]

theorem seenInv_append {submap : List (Nat × Nat)} {seen : List Nat}
    (h : SeenInv submap seen) (s r : Nat) :
    SeenInv (submap ++ [(s, r)]) (s :: seen) := by
  intro x
  rw [lookup_append_single]
  rcases hx : (List.lookup x submap).isSome with _ | _
  · simp only [Bool.false_or]
    constructor
    · intro hb
      exact (beq_iff_eq.mp hb) ▸ List.mem_cons_self x seen
    · intro hmem
      rcases List.mem_cons.mp hmem with hxe | hxe
      · exact beq_iff_eq.mpr hxe
      · exact absurd ((h x).mpr hxe) (by simp [hx])
  · simp only [Bool.true_or, true_iff]
    exact List.mem_cons_of_mem _ ((h x).mp hx)

theorem allocFont_dedup_aux (isDef : Bool) (upper : Nat) :
    ∀ (syms : List Nat) (submap : List (Nat × Nat)) (seen : List Nat) (cursor : Nat),
      SeenInv submap seen →
      allocFont isDef upper syms submap cursor =
        allocFont isDef upper (firstDedupFrom seen syms) submap cursor := by
  intro syms
  induction syms with
  | nil => intro submap seen cursor _; rw [firstDedupFrom]
  | cons s rest ih =>
    intro submap seen cursor hseen
    by_cases hs : s ∈ seen
    · have hl : (List.lookup s submap).isSome = true := (hseen s).mpr hs
      rw [firstDedupFrom, if_pos hs, allocFont_cons_seen _ _ _ _ hl]
      exact ih submap seen cursor hseen
    · have hl : (List.lookup s submap).isSome = false := by
        rcases hb : (List.lookup s submap).isSome with _ | _
        · rfl
        · exact absurd ((hseen s).mp hb) hs
      rw [firstDedupFrom, if_neg hs]
      cases isDef with
      | true =>
        rw [allocFont_cons_default _ _ _ hl, allocFont_cons_default _ _ _ hl]
        exact ih _ _ _ (seenInv_append hseen s s)
      | false =>
        by_cases hc : cursor + 1 ≥ upper
        · rw [allocFont_cons_new_err _ hl hc, allocFont_cons_new_err _ hl hc]
        · rw [allocFont_cons_new_ok _ hl hc, allocFont_cons_new_ok _ hl hc]
          exact ih _ _ _ (seenInv_append hseen s (chr cursor))

/-- Identity (default-font) processing: every collected symbol not yet seen
is mapped to itself, in order, and the cursor is untouched; no error is
possible. -/
theorem allocFont_true_eq (upper : Nat) :
    ∀ (syms : List Nat) (submap : List (Nat × Nat)) (seen : List Nat) (cursor : Nat),
      SeenInv submap seen →
      allocFont true upper syms submap cursor =
        .ok (submap ++ (firstDedupFrom seen syms).map (fun s => (s, s)), cursor) := by
  intro syms
  induction syms with
  | nil => intro submap seen cursor _; rw [firstDedupFrom]; simp [allocFont_nil]
  | cons s rest ih =>
    intro submap seen cursor hseen
    by_cases hs : s ∈ seen
    · have hl : (List.lookup s submap).isSome = true := (hseen s).mpr hs
      rw [firstDedupFrom, if_pos hs, allocFont_cons_seen _ _ _ _ hl]
      exact ih submap seen cursor hseen
    · have hl : (List.lookup s submap).isSome = false := by
        rcases hb : (List.lookup s submap).isSome with _ | _
        · rfl
        · exact absurd ((hseen s).mp hb) hs
      rw [firstDedupFrom, if_neg hs, allocFont_cons_default _ _ _ hl,
        ih _ _ _ (seenInv_append hseen s s)]
      simp [List.append_assoc]

/-- Keys of a successfully built sub-map: the existing keys followed by the
first occurrences of the fresh symbols, in order. -/
theorem allocFont_keys (isDef : Bool) (upper : Nat) :
    ∀ (syms : List Nat) (submap : List (Nat × Nat)) (seen : List Nat) (cursor : Nat)
      (submap' : List (Nat × Nat)) (cursor' : Nat),
      SeenInv submap seen →
      allocFont isDef upper syms submap cursor = .ok (submap', cursor') →
      submap'.map Prod.fst = submap.map Prod.fst ++ firstDedupFrom seen syms := by
  intro syms
  induction syms with
  | nil =>
    intro submap seen cursor submap' cursor' _ hok
    rw [allocFont_nil] at hok
    injection hok with h
    injection h with h1 _
    rw [firstDedupFrom, ← h1, List.append_nil]
  | cons s rest ih =>
    intro submap seen cursor submap' cursor' hseen hok
    by_cases hs : s ∈ seen
    · have hl : (List.lookup s submap).isSome = true := (hseen s).mpr hs
      rw [allocFont_cons_seen _ _ _ _ hl] at hok
      rw [firstDedupFrom, if_pos hs]
      exact ih _ _ _ _ _ hseen hok
    · have hl : (List.lookup s submap).isSome = false := by
        rcases hb : (List.lookup s submap).isSome with _ | _
        · rfl
        · exact absurd ((hseen s).mp hb) hs
      rw [firstDedupFrom, if_neg hs]
      cases isDef with
      | true =>
        rw [allocFont_cons_default _ _ _ hl] at hok
        have := ih _ _ _ _ _ (seenInv_append hseen s s) hok
        rw [this]
        simp
      | false =>
        by_cases hc : cursor + 1 ≥ upper
        · rw [allocFont_cons_new_err _ hl hc] at hok
          exact absurd hok (by simp)
        · rw [allocFont_cons_new_ok _ hl hc] at hok
          have := ih _ _ _ _ _ (seenInv_append hseen s (chr cursor)) hok
          rw [this]
          simp

/-- Non-default processing succeeds when the fresh symbols fit strictly
below the upper bound, and advances the cursor by exactly the number of
fresh symbols. -/
theorem allocFont_false_ok (upper : Nat) :
    ∀ (syms : List Nat) (submap : List (Nat × Nat)) (seen : List Nat) (cursor : Nat),
      SeenInv submap seen →
      (firstDedupFrom seen syms = [] ∨
        cursor + (firstDedupFrom seen syms).length < upper) →
      ∃ submap', allocFont false upper syms submap cursor =
        .ok (submap', cursor + (firstDedupFrom seen syms).length) := by
  intro syms
  induction syms with
  | nil =>
    intro submap seen cursor _ _
    rw [firstDedupFrom]
    exact ⟨submap, by simp [allocFont_nil]⟩
  | cons s rest ih =>
    intro submap seen cursor hseen hcond
    by_cases hs : s ∈ seen
    · have hl : (List.lookup s submap).isSome = true := (hseen s).mpr hs
      rw [firstDedupFrom, if_pos hs] at hcond ⊢
      rw [allocFont_cons_seen _ _ _ _ hl]
      exact ih _ _ _ hseen hcond
    · have hl : (List.lookup s submap).isSome = false := by
        rcases hb : (List.lookup s submap).isSome with _ | _
        · rfl
        · exact absurd ((hseen s).mp hb) hs
      rw [firstDedupFrom, if_neg hs] at hcond ⊢
      have hlt : cursor + ((firstDedupFrom (s :: seen) rest).length + 1) < upper := by
        rcases hcond with hcond | hcond
        · exact absurd hcond (by simp)
        · simpa [List.length_cons] using hcond
      have hc : ¬cursor + 1 ≥ upper := by omega
      rw [allocFont_cons_new_ok _ hl hc]
      obtain ⟨submap', hrun⟩ :=
        ih (submap ++ [(s, chr cursor)]) (s :: seen) (cursor + 1)
          (seenInv_append hseen s (chr cursor)) (Or.inr (by omega))
      refine ⟨submap', ?_⟩
      rw [hrun]
      congr 1
      congr 1
      simp [List.length_cons]
      omega

/-- Non-default processing fails with the range-exhaustion error as soon as
the fresh symbols would push the cursor to (or past) the upper bound. -/
theorem allocFont_false_err (upper : Nat) :
    ∀ (syms : List Nat) (submap : List (Nat × Nat)) (seen : List Nat) (cursor : Nat),
      SeenInv submap seen →
      firstDedupFrom seen syms ≠ [] →
      upper ≤ cursor + (firstDedupFrom seen syms).length →
      allocFont false upper syms submap cursor = .error errMsg := by
  intro syms
  induction syms with
  | nil =>
    intro submap seen cursor _ hne _
    rw [firstDedupFrom] at hne
    exact absurd rfl hne
  | cons s rest ih =>
    intro submap seen cursor hseen hne hge
    by_cases hs : s ∈ seen
    · have hl : (List.lookup s submap).isSome = true := (hseen s).mpr hs
      rw [firstDedupFrom, if_pos hs] at hne hge
      rw [allocFont_cons_seen _ _ _ _ hl]
      exact ih _ _ _ hseen hne hge
    · have hl : (List.lookup s submap).isSome = false := by
        rcases hb : (List.lookup s submap).isSome with _ | _
        · rfl
        · exact absurd ((hseen s).mp hb) hs
      rw [firstDedupFrom, if_neg hs] at hge
      rw [List.length_cons] at hge
      by_cases hc : cursor + 1 ≥ upper
      · exact allocFont_cons_new_err _ hl hc
      · rw [allocFont_cons_new_ok _ hl hc]
        have hne' : firstDedupFrom (s :: seen) rest ≠ [] := by
          intro hnil
          rw [hnil] at hge
          simp at hge
          omega
        exact ih _ _ _ (seenInv_append hseen s (chr cursor))
          hne' (by omega)

/-- Every entry a successful non-default run adds to the sub-map carries a
replacement drawn from `[cursor, cursor')`, one strictly below the upper
bound even after the post-assignment increment; the cursor never moves
backwards. -/
theorem allocFont_false_mono (upper : Nat) :
    ∀ (syms : List Nat) (submap : List (Nat × Nat)) (cursor : Nat)
      (submap' : List (Nat × Nat)) (cursor' : Nat),
      allocFont false upper syms submap cursor = .ok (submap', cursor') →
      cursor ≤ cursor' ∧
        ∀ e ∈ submap', e ∈ submap ∨
          (cursor ≤ e.2 ∧ e.2 < cursor' ∧ e.2 + 1 < upper) := by
  intro syms
  induction syms with
  | nil =>
    intro submap cursor submap' cursor' hok
    rw [allocFont_nil] at hok
    injection hok with h
    injection h with h1 h2
    subst h1; subst h2
    exact ⟨Nat.le_refl _, fun e he => Or.inl he⟩
  | cons s rest ih =>
    intro submap cursor submap' cursor' hok
    rcases hl : (List.lookup s submap).isSome with _ | _
    · by_cases hc : cursor + 1 ≥ upper
      · rw [allocFont_cons_new_err _ hl hc] at hok
        exact absurd hok (by simp)
      · rw [allocFont_cons_new_ok _ hl hc] at hok
        obtain ⟨hle, hmem⟩ := ih _ _ _ _ hok
        refine ⟨by omega, fun e he => ?_⟩
        rcases hmem e he with hin | hbound
        · rcases List.mem_append.mp hin with hin | hin
          · exact Or.inl hin
          · rcases List.mem_singleton.mp hin with rfl
            refine Or.inr ?_
            simp only [chr]
            omega
        · exact Or.inr ⟨by omega, hbound.2.1, hbound.2.2⟩
    · rw [allocFont_cons_seen _ _ _ _ hl] at hok
      exact ih _ _ _ _ hok

/-- Default-font processing never moves the cursor. -/
theorem allocFont_true_cursor (upper : Nat) :
    ∀ (syms : List Nat) (submap : List (Nat × Nat)) (cursor : Nat)
      (submap' : List (Nat × Nat)) (cursor' : Nat),
      allocFont true upper syms submap cursor = .ok (submap', cursor') →
      cursor' = cursor := by
  intro syms
  induction syms with
  | nil =>
    intro submap cursor submap' cursor' hok
    rw [allocFont_nil] at hok
    injection hok with h
    injection h with _ h2
    exact h2.symm
  | cons s rest ih =>
    intro submap cursor submap' cursor' hok
    rcases hl : (List.lookup s submap).isSome with _ | _
    · rw [allocFont_cons_default _ _ _ hl] at hok
      exact ih _ _ _ _ hok
    · rw [allocFont_cons_seen _ _ _ _ hl] at hok
      exact ih _ _ _ _ hok

/-- The only error `allocFont` ever produces is the range-exhaustion
message of line 62. -/
theorem allocFont_error_msg (isDef : Bool) (upper : Nat) :
    ∀ (syms : List Nat) (submap : List (Nat × Nat)) (cursor : Nat) (e : String),
      allocFont isDef upper syms submap cursor = .error e → e = errMsg := by
  intro syms
  induction syms with
  | nil =>
    intro submap cursor e herr
    rw [allocFont_nil] at herr
    exact absurd herr (by simp)
  | cons s rest ih =>
    intro submap cursor e herr
    rcases hl : (List.lookup s submap).isSome with _ | _
    · cases isDef with
      | true =>
        rw [allocFont_cons_default _ _ _ hl] at herr
        exact ih _ _ _ herr
      | false =>
        by_cases hc : cursor + 1 ≥ upper
        · rw [allocFont_cons_new_err _ hl hc] at herr
          injection herr with h
          exact h.symm
        · rw [allocFont_cons_new_ok _ hl hc] at herr
          exact ih _ _ _ herr
    · rw [allocFont_cons_seen _ _ _ _ hl] at herr
      exact ih _ _ _ herr

theorem allocFonts_nil (df : Option String) (upper : Nat)
    (acc : List (String × List (Nat × Nat))) (cursor : Nat) :
    allocFonts df upper [] acc cursor = .ok (acc, cursor) := rfl

theorem allocFonts_cons_ok {df : Option String} {upper : Nat} {fontName : String}
    {font : Font} {submap' : List (Nat × Nat)} {cursor' : Nat}
    (rest : List (String × Font)) (acc : List (String × List (Nat × Nat))) (cursor : Nat)
    (h : allocFont (some fontName == df) upper (collectSymbols font) [] cursor =
      .ok (submap', cursor')) :
    allocFonts df upper ((fontName, font) :: rest) acc cursor =
      allocFonts df upper rest (acc ++ [(fontName, submap')]) cursor' := by
  rw [allocFonts, h]

theorem allocFonts_cons_err {df : Option String} {upper : Nat} {fontName : String}
    {font : Font} {e : String}
    (rest : List (String × Font)) (acc : List (String × List (Nat × Nat))) (cursor : Nat)
    (h : allocFont (some fontName == df) upper (collectSymbols font) [] cursor = .error e) :
    allocFonts df upper ((fontName, font) :: rest) acc cursor = .error e := by
  rw [allocFonts, h]

theorem totalDistinct_cons (df : Option String) (p : String × Font)
    (fonts : List (String × Font)) :
    totalDistinct df (p :: fonts) = fontDistinct df p + totalDistinct df fonts := by
  simp [totalDistinct]

/-- The outer loop succeeds, advancing the cursor by the total number of
distinct non-identity-font symbols, whenever that total fits strictly below
the upper bound (or is zero). -/
theorem allocFonts_ok (df : Option String) (upper : Nat) :
    ∀ (fonts : List (String × Font)) (acc : List (String × List (Nat × Nat))) (cursor : Nat),
      (totalDistinct df fonts = 0 ∨ cursor + totalDistinct df fonts < upper) →
      ∃ reps, allocFonts df upper fonts acc cursor =
        .ok (reps, cursor + totalDistinct df fonts) := by
  intro fonts
  induction fonts with
  | nil =>
    intro acc cursor _
    exact ⟨acc, by simp [allocFonts_nil, totalDistinct]⟩
  | cons p rest ih =>
    obtain ⟨fontName, font⟩ := p
    intro acc cursor hcond
    rw [totalDistinct_cons] at hcond ⊢
    rcases hb : (some fontName == df) with _ | _
    · have hfd : fontDistinct df (fontName, font) =
          (firstDedup (collectSymbols font)).length := by
        simp [fontDistinct, hb]
      rw [hfd] at hcond ⊢
      have hsub : firstDedup (collectSymbols font) = [] ∨
          cursor + (firstDedup (collectSymbols font)).length < upper := by
        rcases hcond with hcond | hcond
        · left
          have : (firstDedup (collectSymbols font)).length = 0 := by omega
          exact List.length_eq_zero.mp this
        · right; omega
      obtain ⟨submap', hrun⟩ :=
        allocFont_false_ok upper (collectSymbols font) [] [] cursor seenInv_nil hsub
      simp only [firstDedup] at hrun ⊢
      have hfe : (firstDedupFrom [] (collectSymbols font)).length =
          (firstDedup (collectSymbols font)).length := rfl
      obtain ⟨reps, hrest⟩ := ih (acc ++ [(fontName, submap')])
        (cursor + (firstDedupFrom [] (collectSymbols font)).length)
        (by rcases hcond with hcond | hcond
            · left; omega
            · right; omega)
      refine ⟨reps, ?_⟩
      rw [allocFonts_cons_ok rest acc cursor (hb ▸ hrun), hrest]
      congr 2
      omega
    · have hfd : fontDistinct df (fontName, font) = 0 := by
        simp [fontDistinct, hb]
      rw [hfd] at hcond ⊢
      have hrun := allocFont_true_eq upper (collectSymbols font) [] [] cursor seenInv_nil
      obtain ⟨reps, hrest⟩ := ih (acc ++
        [(fontName, (firstDedupFrom [] (collectSymbols font)).map fun s => (s, s))])
        cursor (by simpa using hcond)
      refine ⟨reps, ?_⟩
      rw [allocFonts_cons_ok rest acc cursor (hb ▸ hrun)]
      simpa using hrest

/-- The outer loop fails with the range-exhaustion error whenever the total
distinct non-identity-font symbols would push the cursor to (or past) the
upper bound. -/
theorem allocFonts_err (df : Option String) (upper : Nat) :
    ∀ (fonts : List (String × Font)) (acc : List (String × List (Nat × Nat))) (cursor : Nat),
      1 ≤ totalDistinct df fonts →
      upper ≤ cursor + totalDistinct df fonts →
      allocFonts df upper fonts acc cursor = .error errMsg := by
  intro fonts
  induction fonts with
  | nil =>
    intro acc cursor h1 _
    rw [totalDistinct] at h1
    simp at h1
  | cons p rest ih =>
    obtain ⟨fontName, font⟩ := p
    intro acc cursor h1 h2
    rw [totalDistinct_cons] at h1 h2
    rcases hb : (some fontName == df) with _ | _
    · have hfd : fontDistinct df (fontName, font) =
          (firstDedup (collectSymbols font)).length := by
        simp [fontDistinct, hb]
      rw [hfd] at h1 h2
      by_cases hup : upper ≤ cursor + (firstDedup (collectSymbols font)).length ∧
          firstDedup (collectSymbols font) ≠ []
      · simp only [firstDedup] at hup
        have herr := allocFont_false_err upper (collectSymbols font) [] [] cursor
          seenInv_nil hup.2 hup.1
        exact allocFonts_cons_err rest acc cursor (by rw [hb]; exact herr)
      · have hok : firstDedup (collectSymbols font) = [] ∨
            cursor + (firstDedup (collectSymbols font)).length < upper := by
          by_cases hnil : firstDedup (collectSymbols font) = []
          · exact Or.inl hnil
          · right
            rcases Nat.lt_or_ge
              (cursor + (firstDedup (collectSymbols font)).length) upper with h | h
            · exact h
            · exact absurd ⟨h, hnil⟩ hup
        obtain ⟨submap', hrun⟩ :=
          allocFont_false_ok upper (collectSymbols font) [] [] cursor seenInv_nil
            (by simp only [firstDedup] at hok; exact hok)
        rw [allocFonts_cons_ok rest acc cursor (by rw [hb]; exact hrun)]
        have ht1 : 1 ≤ totalDistinct df rest := by
          rcases hok with hnil | hlt
          · have : (firstDedup (collectSymbols font)).length = 0 := by
              rw [hnil]; rfl
            omega
          · omega
        refine ih _ _ ht1 ?_
        have hfe : (firstDedupFrom [] (collectSymbols font)).length =
            (firstDedup (collectSymbols font)).length := rfl
        omega
    · have hfd : fontDistinct df (fontName, font) = 0 := by
        simp [fontDistinct, hb]
      rw [hfd] at h1 h2
      have hrun := allocFont_true_eq upper (collectSymbols font) [] [] cursor seenInv_nil
      rw [allocFonts_cons_ok rest acc cursor (by rw [hb]; exact hrun)]
      exact ih _ cursor (by omega) (by omega)

theorem make_replacement_map_of_ok {fonts : List (String × Font)} {df : Option String}
    {lower upper : Nat} {reps : List (String × List (Nat × Nat))} {cursor' : Nat}
    (h : allocFonts df upper fonts [] lower = .ok (reps, cursor')) :
    make_replacement_map fonts df (lower, upper) = .ok ⟨reps⟩ := by
  have h2 : allocFonts df (lower, upper).2 fonts [] (lower, upper).1 =
      .ok (reps, cursor') := h
  rw [make_replacement_map, h2]

theorem make_replacement_map_of_err {fonts : List (String × Font)} {df : Option String}
    {lower upper : Nat} {e : String}
    (h : allocFonts df upper fonts [] lower = .error e) :
    make_replacement_map fonts df (lower, upper) = .error e := by
  have h2 : allocFonts df (lower, upper).2 fonts [] (lower, upper).1 = .error e := h
  rw [make_replacement_map, h2]

/-- The only error the outer loop ever produces is the range-exhaustion
message. -/
theorem allocFonts_error_msg (df : Option String) (upper : Nat) :
    ∀ (fonts : List (String × Font)) (acc : List (String × List (Nat × Nat)))
      (cursor : Nat) (e : String),
      allocFonts df upper fonts acc cursor = .error e → e = errMsg := by
  intro fonts
  induction fonts with
  | nil =>
    intro acc cursor e herr
    rw [allocFonts_nil] at herr
    exact absurd herr (by simp)
  | cons p rest ih =>
    obtain ⟨fontName, font⟩ := p
    intro acc cursor e herr
    cases hres : allocFont (some fontName == df) upper (collectSymbols font) [] cursor with
    | error e' =>
      rw [allocFonts_cons_err rest acc cursor hres] at herr
      injection herr with h
      exact h ▸ allocFont_error_msg _ upper _ _ _ _ hres
    | ok q =>
      obtain ⟨submap', cursor'⟩ := q
      rw [allocFonts_cons_ok rest acc cursor hres] at herr
      exact ih _ _ _ herr

/-- No two entries of different, non-identity fonts share a replacement. -/
def CrossDistinct (df : Option String) (reps : List (String × List (Nat × Nat))) : Prop :=
  ∀ f1 sub1 f2 sub2, (f1, sub1) ∈ reps → (f2, sub2) ∈ reps → f1 ≠ f2 →
    some f1 ≠ df → some f2 ≠ df →
    ∀ s1 v1 s2 v2, (s1, v1) ∈ sub1 → (s2, v2) ∈ sub2 → v1 ≠ v2

/-- Every non-identity sub-map processed so far only holds replacements
strictly below the current cursor. -/
def BoundedBy (df : Option String) (reps : List (String × List (Nat × Nat)))
    (cursor : Nat) : Prop :=
  ∀ f sub, (f, sub) ∈ reps → some f = df ∨ ∀ s v, (s, v) ∈ sub → v < cursor

theorem allocFonts_cross (df : Option String) (upper : Nat) :
    ∀ (fonts : List (String × Font)) (acc : List (String × List (Nat × Nat)))
      (cursor : Nat) (reps : List (String × List (Nat × Nat))) (cursor' : Nat),
      CrossDistinct df acc → BoundedBy df acc cursor →
      allocFonts df upper fonts acc cursor = .ok (reps, cursor') →
      CrossDistinct df reps := by
  intro fonts
  induction fonts with
  | nil =>
    intro acc cursor reps cursor' hcross _ hok
    rw [allocFonts_nil] at hok
    injection hok with h
    injection h with h1 _
    exact h1 ▸ hcross
  | cons p rest ih =>
    obtain ⟨fontName, font⟩ := p
    intro acc cursor reps cursor' hcross hbnd hok
    cases hres : allocFont (some fontName == df) upper (collectSymbols font) [] cursor with
    | error e' =>
      rw [allocFonts_cons_err rest acc cursor hres] at hok
      exact absurd hok (by simp)
    | ok q =>
      obtain ⟨submap', cursor1⟩ := q
      rw [allocFonts_cons_ok rest acc cursor hres] at hok
      rcases hb : (some fontName == df) with _ | _
      · rw [hb] at hres
        obtain ⟨hle, hmem⟩ := allocFont_false_mono upper _ _ _ _ _ hres
        have hnew : ∀ s v, (s, v) ∈ submap' → cursor ≤ v ∧ v < cursor1 := by
          intro s v hsv
          rcases hmem (s, v) hsv with hin | hbounds
          · exact absurd hin (List.not_mem_nil _)
          · exact ⟨hbounds.1, hbounds.2.1⟩
        refine ih _ _ _ _ ?_ ?_ hok
        · intro f1 sub1 f2 sub2 h1 h2 hne hd1 hd2 s1 v1 s2 v2 hm1 hm2
          rcases List.mem_append.mp h1 with ha1 | ha1 <;>
            rcases List.mem_append.mp h2 with ha2 | ha2
          · exact hcross f1 sub1 f2 sub2 ha1 ha2 hne hd1 hd2 s1 v1 s2 v2 hm1 hm2
          · have hs2 : sub2 = submap' :=
              congrArg Prod.snd (List.mem_singleton.mp ha2)
            rcases hbnd f1 sub1 ha1 with hdf | hv
            · exact absurd hdf hd1
            · have hv1 := hv s1 v1 hm1
              have hv2 := (hnew s2 v2 (hs2 ▸ hm2)).1
              omega
          · have hs1 : sub1 = submap' :=
              congrArg Prod.snd (List.mem_singleton.mp ha1)
            rcases hbnd f2 sub2 ha2 with hdf | hv
            · exact absurd hdf hd2
            · have hv2 := hv s2 v2 hm2
              have hv1 := (hnew s1 v1 (hs1 ▸ hm1)).1
              omega
          · have hf1 : f1 = fontName :=
              congrArg Prod.fst (List.mem_singleton.mp ha1)
            have hf2 : f2 = fontName :=
              congrArg Prod.fst (List.mem_singleton.mp ha2)
            exact absurd (hf1.trans hf2.symm) hne
        · intro f sub hm
          rcases List.mem_append.mp hm with ha | ha
          · rcases hbnd f sub ha with hdf | hv
            · exact Or.inl hdf
            · exact Or.inr fun s v hsv => Nat.lt_of_lt_of_le (hv s v hsv) hle
          · have hs : sub = submap' :=
              congrArg Prod.snd (List.mem_singleton.mp ha)
            exact Or.inr fun s v hsv => (hnew s v (hs ▸ hsv)).2
      · rw [hb] at hres
        have hcur : cursor1 = cursor := allocFont_true_cursor upper _ _ _ _ _ hres
        subst hcur
        refine ih _ _ _ _ ?_ ?_ hok
        · intro f1 sub1 f2 sub2 h1 h2 hne hd1 hd2 s1 v1 s2 v2 hm1 hm2
          rcases List.mem_append.mp h1 with ha1 | ha1 <;>
            rcases List.mem_append.mp h2 with ha2 | ha2
          · exact hcross f1 sub1 f2 sub2 ha1 ha2 hne hd1 hd2 s1 v1 s2 v2 hm1 hm2
          · have hf2 : f2 = fontName :=
              congrArg Prod.fst (List.mem_singleton.mp ha2)
            exact absurd (by rw [hf2]; exact beq_iff_eq.mp hb) hd2
          · have hf1 : f1 = fontName :=
              congrArg Prod.fst (List.mem_singleton.mp ha1)
            exact absurd (by rw [hf1]; exact beq_iff_eq.mp hb) hd1
          · have hf1 : f1 = fontName :=
              congrArg Prod.fst (List.mem_singleton.mp ha1)
            have hf2 : f2 = fontName :=
              congrArg Prod.fst (List.mem_singleton.mp ha2)
            exact absurd (hf1.trans hf2.symm) hne
        · intro f sub hm
          rcases List.mem_append.mp hm with ha | ha
          · exact hbnd f sub ha
          · have hf : f = fontName :=
              congrArg Prod.fst (List.mem_singleton.mp ha)
            exact Or.inl (by rw [hf]; exact beq_iff_eq.mp hb)

/-- When no default font is supplied, every replacement value assigned by
the outer loop lies in `[lower, upper)`. -/
theorem allocFonts_range_none (lower upper : Nat) :
    ∀ (fonts : List (String × Font)) (acc : List (String × List (Nat × Nat)))
      (cursor : Nat) (reps : List (String × List (Nat × Nat))) (cursor' : Nat),
      lower ≤ cursor →
      (∀ f sub, (f, sub) ∈ acc → ∀ s v, (s, v) ∈ sub → lower ≤ v ∧ v < upper) →
      allocFonts none upper fonts acc cursor = .ok (reps, cursor') →
      ∀ f sub, (f, sub) ∈ reps → ∀ s v, (s, v) ∈ sub → lower ≤ v ∧ v < upper := by
  intro fonts
  induction fonts with
  | nil =>
    intro acc cursor reps cursor' _ hacc hok
    rw [allocFonts_nil] at hok
    injection hok with h
    injection h with h1 _
    exact h1 ▸ hacc
  | cons p rest ih =>
    obtain ⟨fontName, font⟩ := p
    intro acc cursor reps cursor' hlow hacc hok
    cases hres : allocFont (some fontName == (none : Option String)) upper
        (collectSymbols font) [] cursor with
    | error e' =>
      rw [allocFonts_cons_err rest acc cursor hres] at hok
      exact absurd hok (by simp)
    | ok q =>
      obtain ⟨submap', cursor1⟩ := q
      rw [allocFonts_cons_ok rest acc cursor hres] at hok
      have hb : (some fontName == (none : Option String)) = false := rfl
      rw [hb] at hres
      obtain ⟨hle, hmem⟩ := allocFont_false_mono upper _ _ _ _ _ hres
      refine ih _ _ _ _ (Nat.le_trans hlow hle) ?_ hok
      intro f sub hm s v hsv
      rcases List.mem_append.mp hm with ha | ha
      · exact hacc f sub ha s v hsv
      · have hs : sub = submap' :=
          congrArg Prod.snd (List.mem_singleton.mp ha)
        rcases hmem (s, v) (hs ▸ hsv) with hin | hbounds
        · exact absurd hin (List.not_mem_nil _)
        · exact ⟨Nat.le_trans hlow hbounds.1, by omega⟩

/-- Comparison allocator for the dead-identity-branch claim: the inner loop
of lines 51-62 with the identity branch of lines 55-57 removed.  It is
compared against `allocFont` to express that the identity branch is
unreachable when `default_font` is `None`, as in `main`'s call on lines
118-120. -/
def allocFontNoIdentity (upper : Nat) :
    List Nat → List (Nat × Nat) → Nat → Except String (List (Nat × Nat) × Nat)
  | [], submap, cursor => .ok (submap, cursor)
  | symbol :: rest, submap, cursor =>
    if (List.lookup symbol submap).isSome then
      allocFontNoIdentity upper rest submap cursor
    else if cursor + 1 ≥ upper then .error errMsg
    else allocFontNoIdentity upper rest (submap ++ [(symbol, chr cursor)]) (cursor + 1)

/-- Comparison outer loop: like `allocFonts` but with no default-font test
at all. -/
def allocFontsNoIdentity (upper : Nat) :
    List (String × Font) → List (String × List (Nat × Nat)) → Nat →
    Except String (List (String × List (Nat × Nat)) × Nat)
  | [], acc, cursor => .ok (acc, cursor)
  | (fontName, font) :: rest, acc, cursor =>
    match allocFontNoIdentity upper (collectSymbols font) [] cursor with
    | .error e => .error e
    | .ok (submap, cursor') =>
        allocFontsNoIdentity upper rest (acc ++ [(fontName, submap)]) cursor'

/-- Comparison entry point: `make_replacement_map` with the identity branch
deleted (and hence no `default_font` parameter). -/
def make_replacement_map_noDefault (fonts : List (String × Font))
    (private_range : Nat × Nat) : Except String ReplacementMap :=
  match allocFontsNoIdentity private_range.2 fonts [] private_range.1 with
  | .error e => .error e
  | .ok (replacements, _) => .ok ⟨replacements⟩

theorem allocFont_false_eq_noIdentity (upper : Nat) :
    ∀ (syms : List Nat) (submap : List (Nat × Nat)) (cursor : Nat),
      allocFont false upper syms submap cursor =
        allocFontNoIdentity upper syms submap cursor := by
  intro syms
  induction syms with
  | nil => intro submap cursor; rfl
  | cons s rest ih =>
    intro submap cursor
    rcases hl : (List.lookup s submap).isSome with _ | _
    · by_cases hc : cursor + 1 ≥ upper
      · rw [allocFont_cons_new_err _ hl hc, allocFontNoIdentity,
          if_neg (by simp [hl]), if_pos hc]
      · rw [allocFont_cons_new_ok _ hl hc, allocFontNoIdentity,
          if_neg (by simp [hl]), if_neg hc]
        exact ih _ _
    · rw [allocFont_cons_seen _ _ _ _ hl, allocFontNoIdentity, if_pos hl]
      exact ih _ _

theorem allocFonts_none_eq (upper : Nat) :
    ∀ (fonts : List (String × Font)) (acc : List (String × List (Nat × Nat))) (cursor : Nat),
      allocFonts none upper fonts acc cursor =
        allocFontsNoIdentity upper fonts acc cursor := by
  intro fonts
  induction fonts with
  | nil => intro acc cursor; rfl
  | cons p rest ih =>
    obtain ⟨fontName, font⟩ := p
    intro acc cursor
    rw [allocFonts, allocFontsNoIdentity]
    have hb : (some fontName == (none : Option String)) = false := rfl
    rw [hb, allocFont_false_eq_noIdentity]
    cases h : allocFontNoIdentity upper (collectSymbols font) [] cursor with
    | error e => rfl
    | ok q =>
      obtain ⟨submap, cursor'⟩ := q
      exact ih _ _

theorem make_replacement_map_none_eq (fonts : List (String × Font)) (pr : Nat × Nat) :
    make_replacement_map fonts none pr = make_replacement_map_noDefault fonts pr := by
  rw [make_replacement_map, make_replacement_map_noDefault, allocFonts_none_eq]

/-- Every chunk `wrap_lines` produces has length at most the wrap width. -/
theorem wrap_lines_chunk_le (content : List Nat) (line_length : Nat) :
    ∀ chunk ∈ wrap_lines content line_length, chunk.length ≤ line_length := by
  intro chunk hc
  rw [wrap_lines] at hc
  by_cases hL : (line_length == 0) = true
  · rw [if_pos hL] at hc
    exact absurd hc (List.not_mem_nil _)
  · rw [if_neg hL] at hc
    obtain ⟨k, _, hk⟩ := List.mem_map.mp hc
    rw [← hk, List.length_take]
    exact Nat.min_le_left _ _

/-- Wrapping any 130-character text at width 64 yields chunks of lengths
64, 64 and 2. -/
theorem wrap_lines_130 (content : List Nat) (h : content.length = 130) :
    (wrap_lines content 64).map List.length = [64, 64, 2] := by
  rw [wrap_lines, if_neg (by simp), h]
  rw [show (130 + 64 - 1) / 64 = 3 from rfl]
  rw [show List.range 3 = [0, 1, 2] from by decide]
  simp only [List.map_cons, List.map_nil, List.length_take, List.length_drop, h]
  norm_num

/-- One step of wrapping at width 64: the first 64 characters become the
first chunk and the rest is wrapped in turn (the comprehension over
`range(0, n, 64)` is the unfolding of this recursion). -/
theorem wrap_lines_cons64 (content : List Nat) (h : content ≠ []) :
    wrap_lines content 64 = content.take 64 :: wrap_lines (content.drop 64) 64 := by
  have hn : 1 ≤ content.length := List.length_pos.mpr h
  rw [wrap_lines, if_neg (by simp), wrap_lines, if_neg (by simp), List.length_drop]
  have hK : (content.length + 64 - 1) / 64 =
      ((content.length - 64 + 64 - 1) / 64) + 1 := by omega
  rw [hK, List.range_succ_eq_map, List.map_cons, List.map_map]
  congr 1
  refine List.map_congr_left fun a _ => ?_
  simp only [Function.comp_apply]
  rw [List.drop_drop]
  congr 2
  omega

/-- The chunks of a wrap at width 64 concatenate back, in order, to the
original text: the chunks are consecutive slices with nothing dropped or
reordered. -/
theorem wrap_lines_64_flatten_aux :
    ∀ (fuel : Nat) (content : List Nat), content.length ≤ fuel →
      (wrap_lines content 64).flatten = content := by
  intro fuel
  induction fuel with
  | zero =>
    intro content hle
    rw [List.length_eq_zero.mp (Nat.le_zero.mp hle)]
    rfl
  | succ fuel ih =>
    intro content hle
    by_cases hne : content = []
    · rw [hne]; rfl
    · rw [wrap_lines_cons64 content hne, List.flatten_cons,
        ih (content.drop 64) (by rw [List.length_drop]; omega)]
      exact List.take_append_drop 64 content

/-- The chunk lengths of a wrap at width 64 of a non-empty text are exactly
64 repeated, followed by one final remainder chunk (the only chunk allowed
to be shorter). -/
theorem wrap_lines_64_lengths_aux :
    ∀ (fuel : Nat) (content : List Nat), content.length ≤ fuel → content ≠ [] →
      (wrap_lines content 64).map List.length =
        List.replicate ((content.length + 64 - 1) / 64 - 1) 64 ++
          [content.length - ((content.length + 64 - 1) / 64 - 1) * 64] := by
  intro fuel
  induction fuel with
  | zero =>
    intro content hle hne
    exact absurd (List.length_eq_zero.mp (Nat.le_zero.mp hle)) hne
  | succ fuel ih =>
    intro content hle hne
    have hn : 1 ≤ content.length := List.length_pos.mpr hne
    rw [wrap_lines_cons64 content hne, List.map_cons]
    by_cases h64 : content.length ≤ 64
    · have hdrop : content.drop 64 = [] := List.drop_eq_nil_of_le h64
      rw [hdrop, show wrap_lines [] 64 = [] from rfl, List.map_nil]
      have hK : (content.length + 64 - 1) / 64 - 1 = 0 := by omega
      rw [hK, List.replicate_zero, List.nil_append, List.length_take]
      congr 1
      omega
    · push_neg at h64
      have hlen : (content.drop 64).length = content.length - 64 :=
        List.length_drop ..
      have hne' : content.drop 64 ≠ [] := by
        intro hnil
        rw [hnil] at hlen
        simp at hlen
        omega
      have hrec := ih (content.drop 64) (by rw [hlen]; omega) hne'
      rw [hrec, hlen, List.length_take]
      have hmin : min 64 content.length = 64 := by omega
      rw [hmin]
      have hK : (content.length + 64 - 1) / 64 - 1 =
          ((content.length - 64 + 64 - 1) / 64 - 1) + 1 := by omega
      rw [hK, List.replicate_succ, List.cons_append]
      have hfinal : content.length - 64 -
            ((content.length - 64 + 64 - 1) / 64 - 1) * 64 =
          content.length -
            (((content.length - 64 + 64 - 1) / 64 - 1) + 1) * 64 := by omega
      rw [hfinal]

theorem splitOnNL_ne_nil : ∀ l : List Nat, splitOnNL l ≠ [] := by
  intro l
  cases l with
  | nil => simp [splitOnNL]
  | cons c rest =>
    simp only [splitOnNL]
    by_cases h : (c == 10) = true
    · simp [h]
    · rcases hs : splitOnNL rest with _ | ⟨l0, ls⟩ <;> simp [h, hs]

/-- Joining the lines of a split recovers the text minus its newlines. -/
theorem splitOnNL_flatten (l : List Nat) :
    (splitOnNL l).flatten = l.filter (fun c => !(c == 10)) := by
  induction l with
  | nil => rfl
  | cons c rest ih =>
    simp only [splitOnNL]
    by_cases h : (c == 10) = true
    · simp only [h, if_true, List.flatten_cons, List.nil_append, ih, List.filter_cons]
      simp [h]
    · rcases hs : splitOnNL rest with _ | ⟨l0, ls⟩
      · exact absurd hs (splitOnNL_ne_nil rest)
      · rw [hs] at ih
        rw [if_neg h]
        show ((c :: l0) :: ls).flatten = List.filter (fun c => !(c == 10)) (c :: rest)
        rw [List.filter_cons]
        have hnot : (c == 10) = false := by
          rcases hb : (c == 10) with _ | _
          · rfl
          · exact absurd hb h
        rw [hnot]
        simp only [Bool.not_false, if_true]
        rw [← ih, List.flatten_cons, List.flatten_cons, List.cons_append]

/-- Every character of every line of a split comes from the text and is not
a newline. -/
theorem mem_splitOnNL {x : Nat} :
    ∀ (l : List Nat) (line : List Nat), line ∈ splitOnNL l → x ∈ line →
      x ∈ l ∧ (x == 10) = false := by
  intro l
  induction l with
  | nil =>
    intro line hline hx
    simp only [splitOnNL] at hline
    rw [List.mem_singleton.mp hline] at hx
    exact absurd hx (List.not_mem_nil _)
  | cons c rest ih =>
    intro line hline hx
    simp only [splitOnNL] at hline
    by_cases h : (c == 10) = true
    · rw [if_pos h] at hline
      rcases List.mem_cons.mp hline with hline | hline
      · rw [hline] at hx
        exact absurd hx (List.not_mem_nil _)
      · obtain ⟨hmem, hne⟩ := ih line hline hx
        exact ⟨List.mem_cons_of_mem _ hmem, hne⟩
    · rw [if_neg h] at hline
      rcases hs : splitOnNL rest with _ | ⟨l0, ls⟩
      · exact absurd hs (splitOnNL_ne_nil rest)
      · rw [hs] at hline
        rcases List.mem_cons.mp hline with hline | hline
        · rw [hline] at hx
          rcases List.mem_cons.mp hx with hxc | hx0
          · refine ⟨hxc ▸ List.mem_cons_self c rest, ?_⟩
            rw [hxc]
            exact Bool.not_eq_true _ ▸ (by simpa using h)
          · obtain ⟨hmem, hne⟩ := ih l0 (hs ▸ List.mem_cons_self l0 ls) hx0
            exact ⟨List.mem_cons_of_mem _ hmem, hne⟩
        · obtain ⟨hmem, hne⟩ := ih line (hs ▸ List.mem_cons_of_mem l0 hline) hx
          exact ⟨List.mem_cons_of_mem _ hmem, hne⟩

theorem dropWhile_of_none (m : List Nat) (hm : ∀ c ∈ m, isPySpace c = false) :
    m.dropWhile isPySpace = m := by
  cases m with
  | nil => rfl
  | cons a t => simp [List.dropWhile_cons, hm a (List.mem_cons_self a t)]

/-- Stripping a line with no whitespace at all leaves it unchanged. -/
theorem pyStrip_id (l : List Nat) (h : ∀ c ∈ l, isPySpace c = false) :
    pyStrip l = l := by
  rw [pyStrip, dropWhile_of_none l h,
    dropWhile_of_none l.reverse (fun c hc => h c (List.mem_reverse.mp hc)),
    List.reverse_reverse]

theorem map_self {α : Type} (f : α → α) :
    ∀ (l : List α), (∀ a ∈ l, f a = a) → l.map f = l := by
  intro l h
  induction l with
  | nil => rfl
  | cons a t ih =>
    rw [List.map_cons, h a (List.mem_cons_self a t),
      ih fun b hb => h b (List.mem_cons_of_mem a hb)]

/-- When the corpus has no whitespace other than newlines, collection keeps
exactly the non-newline characters, in order, then the extras. -/
theorem collectSymbols_filter (name filename : String) (corpus extra : List Nat)
    (h : ∀ c ∈ corpus, isPySpace c = true → c = 10) :
    collectSymbols ⟨name, filename, corpus, extra⟩ =
      corpus.filter (fun c => !(c == 10)) ++ extra.map chr := by
  have hid : (splitOnNL corpus).map pyStrip = splitOnNL corpus := by
    refine map_self pyStrip _ fun line hline => pyStrip_id line fun c hc => ?_
    obtain ⟨hmem, hne⟩ := mem_splitOnNL corpus line hline hc
    rcases hps : isPySpace c with _ | _
    · rfl
    · have : c = 10 := h c hmem hps
      rw [this] at hne
      simp at hne
  simp only [collectSymbols]
  rw [hid, splitOnNL_flatten]

/-- The first-occurrence count of any symbol present in a sequence is one
after deduplication. -/
theorem count_firstDedup {s : Nat} {l : List Nat} (h : s ∈ l) :
    (firstDedup l).count s = 1 := by
  refine List.count_eq_one_of_mem (nodup_firstDedupFrom [] l) ?_
  exact mem_firstDedupFrom.mpr ⟨h, List.not_mem_nil s⟩

/-- C1: with fonts A (collected symbols "ab") and B ("bc") in that order, no
default font, and private range (100, 110), `make_replacement_map` returns
exactly A: a(97)→100, b(98)→101 and B: b(98)→102, c(99)→103 — the cursor is
shared across fonts and B's b gets a fresh code point despite equalling
A's b. -/
theorem c1_shared_cursor_scenario :
    make_replacement_map
      [("A", ⟨"A", "a.ttf", [97, 98], []⟩), ("B", ⟨"B", "b.ttf", [98, 99], []⟩)]
      none (100, 110) =
      .ok ⟨[("A", [(97, 100), (98, 101)]), ("B", [(98, 102), (99, 103)])]⟩ := rfl

theorem make_replacement_map_ok_inv {fonts : List (String × Font)} {df : Option String}
    {lower upper : Nat} {rm : ReplacementMap}
    (hok : make_replacement_map fonts df (lower, upper) = .ok rm) :
    ∃ cursor', allocFonts df upper fonts [] lower = .ok (rm.replacements, cursor') := by
  cases hres : allocFonts df upper fonts [] lower with
  | error e =>
    rw [make_replacement_map_of_err hres] at hok
    exact absurd hok (by simp)
  | ok q =>
    obtain ⟨reps, cursor'⟩ := q
    rw [make_replacement_map_of_ok hres] at hok
    injection hok with h
    refine ⟨cursor', ?_⟩
    rw [← h]

/-- C2 counterexample: a private range of width exactly 1 holding exactly 1
distinct symbol still raises the range-exhaustion error, because line 61
tests `current_symbol >= private_range[1]` after the final assignment and
increment — so a range sized exactly to the total distinct-symbol count is
not enough, refuting the claim that `total ≤ width` always succeeds. -/
theorem c2_counterexample :
    totalDistinct none [("A", ⟨"A", "a.ttf", [97], []⟩)] = 101 - 100 ∧
    make_replacement_map [("A", ⟨"A", "a.ttf", [97], []⟩)] none (100, 101) =
      .error errMsg :=
  ⟨rfl, rfl⟩

/-- C2 (amended): whenever the total number of distinct symbols over all
non-identity fonts is STRICTLY LESS than the private range's width
`upper - lower`, `make_replacement_map` completes and returns a full
`ReplacementMap` without raising the allocation-exhausted error. -/
theorem c2_success_below_width (fonts : List (String × Font)) (df : Option String)
    (lower upper : Nat) (h : totalDistinct df fonts < upper - lower) :
    isOk (make_replacement_map fonts df (lower, upper)) = true := by
  have hlt : lower + totalDistinct df fonts < upper := by omega
  obtain ⟨reps, hrun⟩ := allocFonts_ok df upper fonts [] lower (Or.inr hlt)
  rw [make_replacement_map_of_ok hrun]
  rfl

theorem c2_success_below_width_witness :
    totalDistinct none [("A", ⟨"A", "a.ttf", [97], []⟩)] < 102 - 100 ∧
    isOk (make_replacement_map [("A", ⟨"A", "a.ttf", [97], []⟩)] none (100, 102)) = true :=
  ⟨by decide, c2_success_below_width [("A", ⟨"A", "a.ttf", [97], []⟩)] none 100 102 (by decide)⟩

/-- C3 counterexample: with default font A whose corpus contains the
character with code point 100 and private range (100, 110), A's entry maps
100 to itself while non-default B's first symbol is allocated the cursor
value 100 — two entries of distinct fonts ("A" ≠ "B") share the replacement
100, refuting distinctness for arbitrary entries of the map. -/
theorem c3_counterexample :
    make_replacement_map
      [("A", ⟨"A", "a.ttf", [100], []⟩), ("B", ⟨"B", "b.ttf", [120], []⟩)]
      (some "A") (100, 110) =
      .ok ⟨[("A", [(100, 100)]), ("B", [(120, 100)])]⟩ ∧
    "A" ≠ "B" :=
  ⟨rfl, by decide⟩

/-- C3 (amended): for every two entries (font1, symbol1) and (font2,
symbol2) of a returned `ReplacementMap` with font1 distinct from font2 and
NEITHER font the designated default font, the assigned replacement
characters are distinct, even when symbol1 and symbol2 are identical. -/
theorem c3_cross_font_distinct (fonts : List (String × Font)) (df : Option String)
    (lower upper : Nat) (rm : ReplacementMap)
    (hok : make_replacement_map fonts df (lower, upper) = .ok rm) :
    ∀ f1 sub1 f2 sub2, (f1, sub1) ∈ rm.replacements → (f2, sub2) ∈ rm.replacements →
      f1 ≠ f2 → some f1 ≠ df → some f2 ≠ df →
      ∀ s1 v1 s2 v2, (s1, v1) ∈ sub1 → (s2, v2) ∈ sub2 → v1 ≠ v2 := by
  obtain ⟨cursor', hres⟩ := make_replacement_map_ok_inv hok
  exact allocFonts_cross df upper fonts [] lower rm.replacements cursor'
    (fun f1 sub1 f2 sub2 h1 => absurd h1 (List.not_mem_nil _))
    (fun f sub h1 => absurd h1 (List.not_mem_nil _)) hres

theorem c3_cross_font_distinct_witness : (100 : Nat) ≠ 101 :=
  c3_cross_font_distinct
    [("A", ⟨"A", "a.ttf", [97], []⟩), ("B", ⟨"B", "b.ttf", [97], []⟩)] none 100 110
    ⟨[("A", [(97, 100)]), ("B", [(97, 101)])]⟩ rfl
    "A" [(97, 100)] "B" [(97, 101)] (by decide) (by decide) (by decide)
    (by decide) (by decide) 97 100 97 101 (by decide) (by decide)

/-- C4: whenever the total number of distinct non-identity-font symbols
strictly exceeds the private range's width `upper - lower`,
`make_replacement_map` raises the allocation-exhausted `ValueError` the
moment the cursor reaches the upper bound; the result is the bare error, so
no (partial) `ReplacementMap` reaches the caller. -/
theorem c4_range_exhaustion (fonts : List (String × Font)) (df : Option String)
    (lower upper : Nat) (h : upper - lower < totalDistinct df fonts) :
    make_replacement_map fonts df (lower, upper) = .error errMsg := by
  have h1 : 1 ≤ totalDistinct df fonts := by omega
  have h2 : upper ≤ lower + totalDistinct df fonts := by omega
  exact make_replacement_map_of_err (allocFonts_err df upper fonts [] lower h1 h2)

theorem c4_range_exhaustion_witness :
    (101 : Nat) - 100 < totalDistinct none [("A", ⟨"A", "a.ttf", [97, 98], []⟩)] ∧
    make_replacement_map [("A", ⟨"A", "a.ttf", [97, 98], []⟩)] none (100, 101) =
      .error errMsg :=
  ⟨by decide, c4_range_exhaustion [("A", ⟨"A", "a.ttf", [97, 98], []⟩)] none 100 101 (by decide)⟩

/-- C5: a designated default (identity) font maps every collected symbol to
itself and never moves the allocation cursor (general statement on the
per-font loop with the identity test true), and concretely with default
font A, fonts A: "xy", B: "yz" and range (200, 210), the result is A:
x→x, y→y and B: y→200, z→201. -/
theorem c5_identity_passthrough :
    (∀ (upper : Nat) (syms : List Nat) (cursor : Nat),
      allocFont true upper syms [] cursor =
        .ok ((firstDedup syms).map (fun s => (s, s)), cursor)) ∧
    make_replacement_map
      [("A", ⟨"A", "a.ttf", [120, 121], []⟩), ("B", ⟨"B", "b.ttf", [121, 122], []⟩)]
      (some "A") (200, 210) =
      .ok ⟨[("A", [(120, 120), (121, 121)]), ("B", [(121, 200), (122, 201)])]⟩ := by
  constructor
  · intro upper syms cursor
    have h := allocFont_true_eq upper syms [] [] cursor seenInv_nil
    simpa [firstDedup] using h
  · rfl

/-- C6: a symbol occurring more than once in a font's collected sequence is
processed exactly as if only its first occurrence were present (same
sub-map, same final cursor, same error behaviour), and on success the
resulting sub-map holds exactly one entry for that symbol. -/
theorem c6_first_occurrence_dedup (isDef : Bool) (upper : Nat) (syms : List Nat)
    (cursor : Nat) (s : Nat) (hdup : 1 < syms.count s) :
    allocFont isDef upper syms [] cursor =
      allocFont isDef upper (firstDedup syms) [] cursor ∧
    ∀ submap' cursor', allocFont isDef upper syms [] cursor = .ok (submap', cursor') →
      (submap'.map Prod.fst).count s = 1 := by
  constructor
  · exact allocFont_dedup_aux isDef upper syms [] [] cursor seenInv_nil
  · intro submap' cursor' hok
    have hkeys := allocFont_keys isDef upper syms [] [] cursor submap' cursor' seenInv_nil hok
    rw [hkeys]
    simp only [List.map_nil, List.nil_append]
    have hs : s ∈ syms := by
      by_contra hns
      rw [List.count_eq_zero.mpr hns] at hdup
      omega
    exact count_firstDedup hs

theorem c6_first_occurrence_dedup_witness :
    1 < ([97, 98, 97] : List Nat).count 97 ∧
    (([(97, 100), (98, 101)] : List (Nat × Nat)).map Prod.fst).count 97 = 1 :=
  ⟨by decide,
    (c6_first_occurrence_dedup false 110 [97, 98, 97] 100 97 (by decide)).2
      [(97, 100), (98, 101)] 102 rfl⟩

/-- C7 counterexample: the collector does not remove ONLY newlines — a
leading space (code 32) on a line is stripped as well, so the corpus
consisting of a space followed by "a" collects just [97], not [32, 97]. -/
theorem c7_counterexample :
    collectSymbols ⟨"A", "a.ttf", [32, 97], []⟩ = [97] ∧
    ([97] : List Nat) ≠ [32, 97] :=
  ⟨rfl, by decide⟩

/-- C7 (amended): the collector strips leading and trailing whitespace of
every line — not only newlines; on a corpus whose only whitespace is
newlines it keeps exactly the non-newline characters in their original
order, then appends one character per extra code point via `chr`, in the
list's given order (so "ab\ncd" collects a, b, c, d). -/
theorem c7_collect_filter (name filename : String) (corpus extra : List Nat)
    (h : ∀ c ∈ corpus, isPySpace c = true → c = 10) :
    collectSymbols ⟨name, filename, corpus, extra⟩ =
      corpus.filter (fun c => !(c == 10)) ++ extra.map chr :=
  collectSymbols_filter name filename corpus extra h

theorem c7_collect_filter_witness :
    collectSymbols ⟨"A", "a.ttf", [97, 98, 10, 99, 100], [105]⟩ =
      [97, 98, 99, 100, 105] := by
  rw [c7_collect_filter "A" "a.ttf" [97, 98, 10, 99, 100] [105] (by decide)]
  rfl

/-- C8: wrapping at width 64 splits any text into consecutive chunks (they
concatenate back, in order, to the text); on a non-empty text every chunk is
exactly 64 long except the single final chunk, whose length lies in (0, 64];
any 130-character text wraps to chunks of lengths exactly 64, 64, 2; and the
preview-text table always contains the fixed "base" entry wrapped at 64,
every entry (font entries and base alike) being wrapped to chunks of length
at most 64. -/
theorem c8_preview_wrapping :
    (∀ content : List Nat, (wrap_lines content 64).flatten = content) ∧
    (∀ content : List Nat, content ≠ [] →
      (wrap_lines content 64).map List.length =
        List.replicate ((content.length + 64 - 1) / 64 - 1) 64 ++
          [content.length - ((content.length + 64 - 1) / 64 - 1) * 64] ∧
      0 < content.length - ((content.length + 64 - 1) / 64 - 1) * 64 ∧
      content.length - ((content.length + 64 - 1) / 64 - 1) * 64 ≤ 64) ∧
    (∀ content : List Nat, content.length = 130 →
      (wrap_lines content 64).map List.length = [64, 64, 2]) ∧
    (∀ rm : ReplacementMap,
      ("base", wrap_lines (ascii_letters ++ ascii_digits ++ ascii_punctuation) 64) ∈
        preview_text rm) ∧
    (∀ (rm : ReplacementMap) (entry : String × List (List Nat)),
      entry ∈ preview_text rm → ∀ chunk ∈ entry.2, chunk.length ≤ 64) := by
  refine ⟨?_, ?_, wrap_lines_130, ?_, ?_⟩
  · intro content
    exact wrap_lines_64_flatten_aux content.length content (Nat.le_refl _)
  · intro content hne
    have hn : 1 ≤ content.length := List.length_pos.mpr hne
    refine ⟨wrap_lines_64_lengths_aux content.length content (Nat.le_refl _) hne,
      ?_, ?_⟩ <;> omega
  · intro rm
    exact List.mem_append.mpr (Or.inr (List.mem_singleton.mpr rfl))
  · intro rm entry hentry chunk hchunk
    rcases List.mem_append.mp hentry with hm | hm
    · obtain ⟨p, _, hp⟩ := List.mem_map.mp hm
      have h2 : entry.2 = wrap_lines (p.2.map Prod.snd) 64 := (congrArg Prod.snd hp).symm
      exact wrap_lines_chunk_le _ 64 chunk (h2 ▸ hchunk)
    · have hp := List.mem_singleton.mp hm
      have h2 : entry.2 =
          wrap_lines (ascii_letters ++ ascii_digits ++ ascii_punctuation) 64 :=
        congrArg Prod.snd hp
      exact wrap_lines_chunk_le _ 64 chunk (h2 ▸ hchunk)

theorem c8_preview_wrapping_witness :
    (wrap_lines [1, 2, 3] 64).map List.length =
      List.replicate ((([1, 2, 3] : List Nat).length + 64 - 1) / 64 - 1) 64 ++
        [([1, 2, 3] : List Nat).length -
          ((([1, 2, 3] : List Nat).length + 64 - 1) / 64 - 1) * 64] ∧
    (wrap_lines (List.replicate 130 97) 64).map List.length = [64, 64, 2] :=
  ⟨(c8_preview_wrapping.2.1 [1, 2, 3] (by decide)).1,
   c8_preview_wrapping.2.2.1 (List.replicate 130 97) (by simp)⟩

/-- C9 counterexample: two failing runs that leave different numbers of
symbols unassigned (one leftover vs two) raise the very same error value —
the fixed string of line 62 — so the allocation-exhausted error does not
carry the count of unassigned symbols. -/
theorem c9_counterexample :
    make_replacement_map [("A", ⟨"A", "a.ttf", [97, 98], []⟩)] none (100, 101) =
      .error errMsg ∧
    make_replacement_map [("A", ⟨"A", "a.ttf", [97, 98, 99], []⟩)] none (100, 101) =
      .error errMsg ∧
    totalDistinct none [("A", ⟨"A", "a.ttf", [97, 98], []⟩)] ≠
      totalDistinct none [("A", ⟨"A", "a.ttf", [97, 98, 99], []⟩)] :=
  ⟨rfl, rfl, by decide⟩

/-- C9 (amended): every error `make_replacement_map` raises is the one
fixed message "Private range is full, use different range"; it carries no
count of unassigned symbols (the same value is raised however many symbols
remain). -/
theorem c9_fixed_error_message (fonts : List (String × Font)) (df : Option String)
    (lower upper : Nat) (e : String)
    (herr : make_replacement_map fonts df (lower, upper) = .error e) : e = errMsg := by
  cases hres : allocFonts df upper fonts [] lower with
  | error e' =>
    rw [make_replacement_map_of_err hres] at herr
    injection herr with h
    exact h ▸ allocFonts_error_msg df upper fonts [] lower e' hres
  | ok q =>
    obtain ⟨reps, cursor'⟩ := q
    rw [make_replacement_map_of_ok hres] at herr
    exact absurd herr (by simp)

theorem c9_fixed_error_message_witness :
    make_replacement_map [("A", ⟨"A", "a.ttf", [97], []⟩)] none (100, 101) =
      .error "Private range is full, use different range" ∧
    "Private range is full, use different range" = errMsg :=
  ⟨rfl, c9_fixed_error_message [("A", ⟨"A", "a.ttf", [97], []⟩)] none 100 101
    "Private range is full, use different range" rfl⟩

/-- Lines 118-120 of src/main.py: the call in `main`, which passes only the
fonts and the private range, so `default_font` takes its declared default
`None`. -/
def main_replacement_map (fonts : List (String × Font)) (private_range : Nat × Nat) :
    Except String ReplacementMap :=
  make_replacement_map fonts none private_range

/-- C10: the pipeline's entry point never designates an identity font —
`main`'s call leaves `default_font` at its default `None`, under which the
allocator behaves exactly like the allocator with the identity branch
deleted (the branch is dead), and every replacement value of a successful
run is a fresh code point of the private range `[lower, upper)`. -/
theorem c10_identity_branch_dead :
    (∀ (fonts : List (String × Font)) (pr : Nat × Nat),
      main_replacement_map fonts pr = make_replacement_map_noDefault fonts pr) ∧
    (∀ (fonts : List (String × Font)) (lower upper : Nat) (rm : ReplacementMap),
      main_replacement_map fonts (lower, upper) = .ok rm →
      ∀ f sub, (f, sub) ∈ rm.replacements → ∀ s v, (s, v) ∈ sub →
        lower ≤ v ∧ v < upper) := by
  constructor
  · intro fonts pr
    exact make_replacement_map_none_eq fonts pr
  · intro fonts lower upper rm hok
    obtain ⟨cursor', hres⟩ := make_replacement_map_ok_inv hok
    exact allocFonts_range_none lower upper fonts [] lower rm.replacements cursor'
      (Nat.le_refl _) (fun f sub h1 => absurd h1 (List.not_mem_nil _)) hres

theorem c10_identity_branch_dead_witness :
    (main_replacement_map [("A", ⟨"A", "a.ttf", [97], []⟩)] (100, 110) =
      make_replacement_map_noDefault [("A", ⟨"A", "a.ttf", [97], []⟩)] (100, 110)) ∧
    ((100 : Nat) ≤ 100 ∧ (100 : Nat) < 110) :=
  ⟨c10_identity_branch_dead.1 [("A", ⟨"A", "a.ttf", [97], []⟩)] (100, 110),
   c10_identity_branch_dead.2 [("A", ⟨"A", "a.ttf", [97], []⟩)] 100 110
     ⟨[("A", [(97, 100)])]⟩ rfl "A" [(97, 100)] (by decide) 97 100 (by decide)⟩
